import Mathlib

/-!
# Project-OS scheduler (`scheduler.c`): execution queue, FCFS and Round-Robin loops

A shallow embedding of `scheduler.c`.

* The doubly linked `ExecutionQueue` lives in an explicit heap: a node pointer is a
  natural number, `NULL` is `0`, and the heap maps an address to the node stored there
  (`none` for memory that is not allocated).  `malloc` results, `fork` results and
  `clock` readings are inputs supplied by the environment.
* The source's globals (`queue`, `currentProcess`, `start`, `finish`) are the fields of
  `State`; every call in the program passes the address of the global `queue`.
* `executionTime` is a `double` that only ever holds sums of differences of `clock_t`
  readings; it is modelled by an integer number of clock ticks.
* A call of `exit(EXIT_FAILURE)`, the child side of `fork`, and behaviour the C standard
  leaves undefined (dereferencing a null or freed pointer, overflowing the name buffer,
  reading a field that was never written) end a run with a `Stop` value.
-/

namespace Scheduler

/-- Capacity of the name buffer, `#define MAX_FILENAME_LENGTH 256`. -/
def MAX_FILENAME_LENGTH : Nat := 256

/-- The C type `enum ProcessStatus`. -/
inductive ProcessStatus
  | NEW
  | RUNNING
  | STOPPED
  | EXITED
deriving DecidableEq, Repr

/-- Node pointers: an address, with `0` for the null pointer. -/
abbrev Ptr := Nat

/-- The null pointer. -/
abbrev NULL : Ptr := 0

/-- The C type `struct Application`.  `filename` is the C string held in the buffer;
`pid` is `none` while the field has never been written (memory fresh from `malloc`). -/
structure Application where
  filename : List Char
  pid : Option Int
  status : ProcessStatus
  executionTime : Int
deriving DecidableEq, Repr

/-- The C type `struct ExecutionQueueNode`. -/
structure ExecutionQueueNode where
  app : Application
  next : Ptr
  prev : Ptr
deriving DecidableEq, Repr

/-- The C type `struct ExecutionQueue`. -/
structure ExecutionQueue where
  front : Ptr
  rear : Ptr
deriving DecidableEq, Repr

/-- Allocated nodes by address. -/
abbrev Heap := Ptr → Option ExecutionQueueNode

/-- Store a node at an address. -/
def Heap.write (h : Heap) (p : Ptr) (n : ExecutionQueueNode) : Heap :=
  fun q => if q = p then some n else h q

/-- Release the node at an address (`free`). -/
def Heap.free (h : Heap) (p : Ptr) : Heap :=
  fun q => if q = p then none else h q

/-- Read through a pointer: `none` for the null pointer and for memory that is not allocated. -/
def Heap.deref (h : Heap) (p : Ptr) : Option ExecutionQueueNode :=
  if p = NULL then none else h p

/-- One line written by `printf("Process %s completed. Execution time: %f\n", ...)`. -/
structure Completion where
  name : List Char
  time : Int
deriving DecidableEq, Repr

/-- Global variables of the program, the heap, and what was written to standard output.
`launched` lists the children created by `fork` with the program each one executes. -/
structure State where
  heap : Heap
  queue : ExecutionQueue
  currentProcess : Ptr
  start : Int
  finish : Int
  stdout : List Completion
  launched : List (Int × List Char)

/-- Ways a run stops other than by returning: `exitFailure msg` is a call of
`exit(EXIT_FAILURE)` after `msg` went to standard error; `childExec file` is the child side of
`fork`, which calls `execlp` on `file` and never comes back to the scheduler;
`undefinedBehaviour` is an access the C standard does not define. -/
inductive Stop
  | exitFailure (msg : String)
  | childExec (file : List Char)
  | undefinedBehaviour
deriving DecidableEq, Repr

/-- Contents written into a freshly allocated node by lines 61-68 of `enqueueApplication`:
name, status and time are copied, `pid` is left unwritten, `next` is null and `prev` is the
old rear. -/
def newQueueNode (filename : List Char) (status : ProcessStatus) (time : Int) (rear : Ptr) :
    ExecutionQueueNode :=
  { app := { filename := filename, pid := none, status := status, executionTime := time },
    next := NULL,
    prev := rear }

/-- Translation of `enqueueApplication`, lines 53-78.  `newNode` is the value returned by `malloc`. -/
def enqueueApplication (newNode : Ptr) (s : State) (filename : List Char)
    (status : ProcessStatus) (time : Int) : Except Stop State :=
  if newNode = NULL then
    .error (.exitFailure "Error allocating memory")
  else if MAX_FILENAME_LENGTH ≤ filename.length then
    -- strcpy would write past the end of the 256 byte buffer
    .error .undefinedBehaviour
  else
    let heap1 := s.heap.write newNode (newQueueNode filename status time s.queue.rear)
    if s.queue.rear = NULL then
      .ok { s with heap := heap1, queue := { front := newNode, rear := newNode } }
    else
      match heap1.deref s.queue.rear with
      | none => .error .undefinedBehaviour
      | some r =>
        .ok { s with
              heap := heap1.write s.queue.rear { r with next := newNode },
              queue := { front := s.queue.front, rear := newNode } }

/-- Translation of `dequeueApplication`, lines 80-102. -/
def dequeueApplication (s : State) : Except Stop State :=
  if s.queue.front = NULL then
    .error (.exitFailure "Queue is empty\n")
  else
    match s.heap.deref s.queue.front with
    | none => .error .undefinedBehaviour
    | some temp =>
      let front := temp.next
      .ok { s with
            heap := s.heap.free s.queue.front,
            queue := { front := front, rear := if front = NULL then NULL else s.queue.rear },
            currentProcess := front }

/-- Follow `next` pointers from `p`: the nodes met are exactly the addresses `as`, in this
order, every one of them allocated, and the chain ends in `NULL`. -/
def segB (h : Heap) : Ptr → List Ptr → Bool
  | p, [] => p == NULL
  | p, a :: as =>
    p == a && a != NULL &&
      (match h a with
       | none => false
       | some n => segB h n.next as)

/-- Every listed node holds a name that fits the name buffer with its terminator. -/
def namesFitB (h : Heap) (as : List Ptr) : Bool :=
  as.all (fun a =>
    match h a with
    | none => false
    | some n => decide (n.app.filename.length < MAX_FILENAME_LENGTH))

/-- Representation invariant: the queue of `s` consists of the nodes at addresses `as`, from
front to rear. -/
def IsQueue (s : State) (as : List Ptr) : Prop :=
  segB s.heap s.queue.front as = true ∧ as.Nodup ∧ s.queue.rear = as.getLastD NULL ∧
    namesFitB s.heap as = true

instance (s : State) (as : List Ptr) : Decidable (IsQueue s as) := by
  unfold IsQueue; infer_instance

/-- The application records stored at the given addresses. -/
def recordsAt (h : Heap) (as : List Ptr) : List Application :=
  as.filterMap (fun a => (h a).map (fun n => n.app))

/-! ## The schedulers -/

/-- What the environment returns during one pass of the loop of `runFCFSScheduler`:
`pid` is the value of `fork()`, `finish` the value of `clock()` at line 127. -/
structure FCFSTurn where
  pid : Int
  finish : Int
deriving DecidableEq, Repr

/-- Body of the loop of `runFCFSScheduler`, lines 112-136. -/
def fcfsBody (t : FCFSTurn) (s : State) : Except Stop State :=
  if t.pid = -1 then
    .error (.exitFailure "fork")
  else if t.pid = 0 then
    -- child: execlp(currentProcess->app.filename, ...)
    match s.heap.deref s.currentProcess with
    | none => .error .undefinedBehaviour
    | some cur => .error (.childExec cur.app.filename)
  else
    -- parent: waitpid, finish = clock(), store and print the time, dequeue
    match s.heap.deref s.currentProcess with
    | none => .error .undefinedBehaviour
    | some cur =>
      let time := t.finish - s.start
      dequeueApplication
        { s with
          heap := s.heap.write s.currentProcess
            { cur with app := { cur.app with executionTime := time } },
          finish := t.finish,
          stdout := s.stdout ++ [{ name := cur.app.filename, time := time }],
          launched := s.launched ++ [(t.pid, cur.app.filename)] }

/-- The `while (queue->front != NULL)` loop of `runFCFSScheduler`.  The list holds the
environment's answers for the passes still to come; `none` means that the loop wants another
pass after the list is used up. -/
def fcfsLoop : List FCFSTurn → State → Option (Except Stop State)
  | [], s => if s.queue.front = NULL then some (.ok s) else none
  | t :: ts, s =>
    if s.queue.front = NULL then some (.ok s)
    else
      match fcfsBody t s with
      | .ok s' => fcfsLoop ts s'
      | .error e => some (.error e)

/-- Translation of `runFCFSScheduler`, lines 104-138.  `startClock` is the value of `clock()`
at line 106. -/
def runFCFSScheduler (startClock : Int) (turns : List FCFSTurn) (s : State) :
    Option (Except Stop State) :=
  fcfsLoop turns { s with start := startClock }

/-- What the environment returns during one pass of the loop of `runRoundRobinScheduler`:
`pid` is the value of `fork()`, `finish` the value of `clock()` at line 170, `newNode` the
value of `malloc` inside the call of `enqueueApplication` at line 174. -/
structure RRTurn where
  pid : Int
  finish : Int
  newNode : Ptr
deriving DecidableEq, Repr

/-- Lines 160-171: record the child in the current record, mark it RUNNING and add the time
elapsed since the scheduler's start. -/
def rrAccount (start : Int) (t : RRTurn) (s : State) : Except Stop State :=
  match s.heap.deref s.currentProcess with
  | none => .error .undefinedBehaviour
  | some cur =>
    .ok { s with
          heap := s.heap.write s.currentProcess
            { cur with app := { cur.app with
                                pid := some t.pid,
                                status := .RUNNING,
                                executionTime := cur.app.executionTime + (t.finish - start) } },
          launched := s.launched ++ [(t.pid, cur.app.filename)] }

/-- Line 174: enqueue a record with the current record's name and time, status STOPPED. -/
def rrRequeue (t : RRTurn) (s : State) : Except Stop State :=
  match s.heap.deref s.currentProcess with
  | none => .error .undefinedBehaviour
  | some cur => enqueueApplication t.newNode s cur.app.filename .STOPPED cur.app.executionTime

/-- Lines 177-186: after `waitpid`, mark the current record EXITED and dequeue. -/
def rrFinish (s : State) : Except Stop State :=
  match s.heap.deref s.currentProcess with
  | none => .error .undefinedBehaviour
  | some cur =>
    dequeueApplication
      { s with heap := s.heap.write s.currentProcess
                 { cur with app := { cur.app with status := .EXITED } } }

/-- Body of the loop of `runRoundRobinScheduler`, lines 148-187.  `start` is the local
variable of that name; `quantum` is only passed to `sleep`. -/
def rrBody (start : Int) (_quantum : Int) (t : RRTurn) (s : State) : Except Stop State :=
  if t.pid = -1 then
    .error (.exitFailure "fork")
  else if t.pid = 0 then
    match s.heap.deref s.currentProcess with
    | none => .error .undefinedBehaviour
    | some cur => .error (.childExec cur.app.filename)
  else
    match rrAccount start t s with
    | .error e => .error e
    | .ok s1 =>
      match rrRequeue t s1 with
      | .error e => .error e
      | .ok s2 => rrFinish s2

/-- The `while (queue->front != NULL)` loop of `runRoundRobinScheduler`; `none` means that
the loop wants another pass after the list is used up. -/
def rrLoop (start : Int) (quantum : Int) : List RRTurn → State → Option (Except Stop State)
  | [], s => if s.queue.front = NULL then some (.ok s) else none
  | t :: ts, s =>
    if s.queue.front = NULL then some (.ok s)
    else
      match rrBody start quantum t s with
      | .ok s' => rrLoop start quantum ts s'
      | .error e => some (.error e)

/-- Translation of `runRoundRobinScheduler`, lines 140-189.  `startClock` is the value of
`clock()` at line 143, stored in the local `start` (the global `start` is not touched). -/
def runRoundRobinScheduler (startClock : Int) (quantum : Int) (turns : List RRTurn) (s : State) :
    Option (Except Stop State) :=
  rrLoop startClock quantum turns s

/-! ## The SIGCHLD handler -/

/-- The line feed character. -/
def newline : Char := Char.ofNat 10

/-- The character that ends a C string. -/
def NUL : Char := Char.ofNat 0

/-- Characters stored by `fgets` when it may store at most `n` of them: reading stops after a
line feed or at the end of the stream.  Returns the characters stored and the rest of the stream. -/
def fgetsChars : Nat → List Char → List Char × List Char
  | 0, cs => ([], cs)
  | _ + 1, [] => ([], [])
  | n + 1, c :: cs =>
    if c = newline then ([c], cs)
    else ((fgetsChars n cs).1.cons c, (fgetsChars n cs).2)

/-- The call `fgets(line, size, file)`: `none` at end of file, otherwise at most `size - 1`
characters are stored. -/
def fgets (size : Nat) (stream : List Char) : Option (List Char × List Char) :=
  match stream with
  | [] => none
  | _ :: _ => some (fgetsChars (size - 1) stream)

/-- The C string held in a buffer: the characters before the first terminator. -/
def cstring (buf : List Char) : List Char :=
  buf.takeWhile (fun c => c ≠ NUL)

/-- The C function `strcspn`: length of the longest start of the string with no character of
`reject`. -/
def strcspn (str reject : List Char) : Nat :=
  ((cstring str).takeWhile (fun c => !(reject.contains c))).length

/-- The assignment `line[i] = 0`. -/
def setNul (buf : List Char) (i : Nat) : List Char :=
  buf.take i ++ NUL :: buf.drop (i + 1)

/-- The parsing loop of `main`, lines 254-259.  The first list holds the values returned by
`malloc`, one for each line read; `none` means that the loop wants another allocation after
the list is used up. -/
def mainParseLoop : List Ptr → List Char → State → Option (Except Stop State)
  | [], stream, s =>
    match fgets MAX_FILENAME_LENGTH stream with
    | none => some (.ok s)
    | some _ => none
  | p :: ps, stream, s =>
    match fgets MAX_FILENAME_LENGTH stream with
    | none => some (.ok s)
    | some (line, rest) =>
      match enqueueApplication p s (cstring (setNul line (strcspn line [newline]))) .NEW 0 with
      | .ok s' => mainParseLoop ps rest s'
      | .error e => some (.error e)

/-- A value of type `char*`: never assigned, null, or pointing to a C string. -/
inductive StrPtr
  | uninitialised
  | null
  | str (cs : List Char)
deriving DecidableEq, Repr

/-- The entry `argv[i]`; `argv[argc]` is the null pointer. -/
def argvAt (argv : List (List Char)) (i : Nat) : StrPtr :=
  match argv[i]? with
  | some a => .str a
  | none => .null

/-- Digits at the start of a string, read as a decimal number. -/
def atoiDigits : Nat → List Char → Nat
  | acc, [] => acc
  | acc, c :: cs => if c.isDigit then atoiDigits (10 * acc + (c.toNat - 48)) cs else acc

/-- The C function `isspace` in the C locale: space, tab, line feed, vertical tab, form feed
and carriage return. -/
def isspace (c : Char) : Bool :=
  c.toNat == 32 || (9 ≤ c.toNat && c.toNat ≤ 13)

/-- The C function `atoi` (white space, an optional sign, digits); the result is the number
read, which C defines only while it fits the type `int`. -/
def atoi (str : List Char) : Int :=
  match str.dropWhile isspace with
  | [] => 0
  | c :: cs =>
    if c = Char.ofNat 45 then - (atoiDigits 0 cs : Int)
    else if c = Char.ofNat 43 then (atoiDigits 0 cs : Int)
    else (atoiDigits 0 (c :: cs) : Int)

/-- Values of the locals `algorithm`, `inputFilename` and `quantum` of `main` when control
reaches the call of `fopen` at line 248. -/
structure MainArgs where
  algorithm : List Char
  inputFilename : StrPtr
  quantum : Option Int
deriving DecidableEq, Repr

/-- Lines 221-235 of `main`: the argument count check and the choice of the input file. -/
def mainArguments (argv : List (List Char)) : Except Stop MainArgs :=
  if argv.length ≠ 3 ∧ argv.length ≠ 4 then
    .error (.exitFailure
      ("Usage: " ++ String.mk (argv.headD []) ++ " <quantum> <input_filename1>\n"))
  else
    let algorithm := argv.getD 1 []
    if algorithm = "FCFS".toList then
      .ok { algorithm := algorithm, inputFilename := argvAt argv 2, quantum := none }
    else if algorithm = "RR".toList then
      .ok { algorithm := algorithm, inputFilename := argvAt argv 3,
            quantum := some (atoi (argv.getD 2 [])) }
    else
      .ok { algorithm := algorithm, inputFilename := .uninitialised, quantum := none }

/-- The environment of a run of `main`: the readable files with their contents, the values
returned by `malloc` while the input is parsed, the value of `clock()` when the scheduler
starts, and the answers given to the scheduler loop. -/
structure Env where
  files : List Char → Option (List Char)
  mallocs : List Ptr
  startClock : Int
  fcfsTurns : List FCFSTurn
  rrTurns : List RRTurn

/-- The globals at program start: everything zero, nothing allocated. -/
def initialState : State :=
  { heap := fun _ => none,
    queue := { front := NULL, rear := NULL },
    currentProcess := NULL,
    start := 0,
    finish := 0,
    stdout := [],
    launched := [] }

/-- Translation of `main`, lines 220-272.  A result `some (.ok s)` is the return of `0`. -/
def main (env : Env) (argv : List (List Char)) : Option (Except Stop State) :=
  match mainArguments argv with
  | .error e => some (.error e)
  | .ok args =>
    -- fopen(inputFilename, "r")
    match args.inputFilename with
    | .uninitialised => some (.error .undefinedBehaviour)
    | .null => some (.error .undefinedBehaviour)
    | .str name =>
      match env.files name with
      | none => some (.error (.exitFailure "Error opening file"))
      | some content =>
        match mainParseLoop env.mallocs content
            { initialState with queue := { front := NULL, rear := NULL } } with
        | none => none
        | some (.error e) => some (.error e)
        | some (.ok s) =>
          let s1 := { s with currentProcess := s.queue.front }
          if args.algorithm = "FCFS".toList then
            runFCFSScheduler env.startClock env.fcfsTurns s1
          else if args.algorithm = "RR".toList then
            runRoundRobinScheduler env.startClock (args.quantum.getD 0) env.rrTurns s1
          else some (.ok s1)

/-! ## Specification vocabulary -/

/-- Each pass of the round-robin loop asks the environment for a child and for a node that is
not in use: the passes listed are such answers, one after the other. -/
def rrNominalB (start quantum : Int) : List RRTurn → State → Bool
  | [], _ => true
  | t :: ts, s =>
    decide (0 < t.pid) && t.newNode != NULL && (s.heap t.newNode).isNone &&
      (match rrBody start quantum t s with
       | .ok s' => rrNominalB start quantum ts s'
       | .error _ => true)

/-- The state of the round-robin loop after the listed passes (or at loop exit, if earlier). -/
def rrAfter (start quantum : Int) : List RRTurn → State → Except Stop State
  | [], s => .ok s
  | t :: ts, s =>
    if s.queue.front = NULL then .ok s
    else
      match rrBody start quantum t s with
      | .ok s' => rrAfter start quantum ts s'
      | .error e => .error e

/-- The shape of every state of a run: the queue is well formed, `currentProcess` is its
front, and no record behind the front carries a process handle (`app.pid` is written only at
line 160, through `currentProcess`). -/
def OnlyFrontLaunched (s : State) (as : List Ptr) : Prop :=
  IsQueue s as ∧ s.currentProcess = s.queue.front ∧
    ∀ x ∈ recordsAt s.heap as.tail, x.pid = none

instance (s : State) (as : List Ptr) : Decidable (OnlyFrontLaunched s as) := by
  unfold OnlyFrontLaunched; infer_instance

/-- A text file made of the given lines, each followed by a line feed. -/
def fileOfLines : List (List Char) → List Char
  | [] => []
  | l :: ls => l ++ newline :: fileOfLines ls

/-- The record `enqueueApplication` creates for a name, a status and a time. -/
def freshRecord (filename : List Char) (status : ProcessStatus) (time : Int) : Application :=
  { filename := filename, pid := none, status := status, executionTime := time }

/-- One call of `enqueueApplication`: the value `malloc` returns and the three arguments. -/
structure EnqueueCall where
  newNode : Ptr
  filename : List Char
  status : ProcessStatus
  time : Int
deriving DecidableEq, Repr

/-- The listed calls of `enqueueApplication`, one after the other. -/
def enqueueAll : List EnqueueCall → State → Except Stop State
  | [], s => .ok s
  | c :: cs, s =>
    match enqueueApplication c.newNode s c.filename c.status c.time with
    | .ok s' => enqueueAll cs s'
    | .error e => .error e

/-- The call `dequeueApplication`, `k` times in a row. -/
def dequeueTimes : Nat → State → Except Stop State
  | 0, s => .ok s
  | k + 1, s =>
    match dequeueApplication s with
    | .ok s' => dequeueTimes k s'
    | .error e => .error e

/-! ## Example states and environments -/

/-- A queue of two NEW records, `a.out` at address 1 and `b.out` at address 2, as the parsing
loop builds it. -/
def twoApps : State :=
  { heap := fun p =>
      if p = 1 then some { app := freshRecord "a.out".toList .NEW 0, next := 2, prev := NULL }
      else if p = 2 then some { app := freshRecord "b.out".toList .NEW 0, next := NULL, prev := 1 }
      else none,
    queue := { front := 1, rear := 2 },
    currentProcess := 1,
    start := 0, finish := 0, stdout := [], launched := [] }

/-- A queue with the single NEW record `a.out` at address 1. -/
def oneApp : State :=
  { heap := fun p =>
      if p = 1 then some { app := freshRecord "a.out".toList .NEW 0, next := NULL, prev := NULL }
      else none,
    queue := { front := 1, rear := 1 },
    currentProcess := 1,
    start := 0, finish := 0, stdout := [], launched := [] }

/-- Two calls of `enqueueApplication`: `x` as NEW with time 0 into the node at address 1, `y`
as STOPPED with time 4 into the node at address 2. -/
def twoCalls : List EnqueueCall :=
  [{ newNode := 1, filename := "x".toList, status := .NEW, time := 0 },
   { newNode := 2, filename := "y".toList, status := .STOPPED, time := 4 }]

/-- An environment with one readable file `apps.txt` listing `a.out` and `b.out`. -/
def exampleEnv : Env :=
  { files := fun name =>
      if name = "apps.txt".toList then some (fileOfLines ["a.out".toList, "b.out".toList])
      else none,
    mallocs := [1, 2],
    startClock := 0,
    fcfsTurns := [{ pid := 100, finish := 5 }, { pid := 101, finish := 9 }],
    rrTurns := [] }

/-! ## Heap and list-segment lemmas -/

theorem Heap.write_same (h : Heap) (p : Ptr) (n : ExecutionQueueNode) :
    h.write p n p = some n := by
  simp [Heap.write]

theorem Heap.write_other (h : Heap) {p q : Ptr} (n : ExecutionQueueNode) (hne : q ≠ p) :
    h.write p n q = h q := by
  simp [Heap.write, hne]

theorem Heap.free_same (h : Heap) (p : Ptr) : h.free p p = none := by
  simp [Heap.free]

theorem Heap.free_other (h : Heap) {p q : Ptr} (hne : q ≠ p) : h.free p q = h q := by
  simp [Heap.free, hne]

theorem Heap.deref_of_ne (h : Heap) {p : Ptr} (hp : p ≠ NULL) : h.deref p = h p := by
  simp [Heap.deref, hp]

theorem segB_nil (h : Heap) (p : Ptr) : segB h p [] = true ↔ p = NULL := by
  simp [segB]

theorem segB_cons (h : Heap) (p a : Ptr) (as : List Ptr) :
    segB h p (a :: as) = true ↔
      p = a ∧ a ≠ NULL ∧ ∃ n, h a = some n ∧ segB h n.next as = true := by
  cases hn : h a with
  | none => simp [segB, hn]
  | some n => simp [segB, hn, and_assoc]

/-- A segment only depends on the heap at its own addresses. -/
theorem segB_congr {h g : Heap} : ∀ (as : List Ptr) (p : Ptr),
    (∀ a ∈ as, g a = h a) → segB g p as = segB h p as
  | [], p, _ => by simp [segB]
  | a :: as, p, hag => by
    have ha : g a = h a := hag a (List.mem_cons_self a as)
    have ih : ∀ q, segB g q as = segB h q as := fun q =>
      segB_congr as q (fun b hb => hag b (List.mem_cons_of_mem a hb))
    simp only [segB, ha]
    cases h a with
    | none => rfl
    | some n => simp [ih]

theorem namesFitB_iff (h : Heap) (as : List Ptr) :
    namesFitB h as = true ↔
      ∀ a ∈ as, ∃ n, h a = some n ∧ n.app.filename.length < MAX_FILENAME_LENGTH := by
  unfold namesFitB
  rw [List.all_eq_true]
  constructor
  · intro hall a ha
    have := hall a ha
    cases hn : h a with
    | none => simp [hn] at this
    | some n => exact ⟨n, rfl, by simpa [hn] using this⟩
  · intro hall a ha
    obtain ⟨n, hn, hlt⟩ := hall a ha
    simp [hn, hlt]

theorem recordsAt_congr {h g : Heap} (as : List Ptr)
    (hag : ∀ a ∈ as, (g a).map (fun n => n.app) = (h a).map (fun n => n.app)) :
    recordsAt g as = recordsAt h as := by
  unfold recordsAt
  induction as with
  | nil => rfl
  | cons a as ih =>
    have ha := hag a (List.mem_cons_self a as)
    have ih2 := ih (fun b hb => hag b (List.mem_cons_of_mem a hb))
    simp only [List.filterMap_cons, ha, ih2]

theorem recordsAt_append (h : Heap) (as bs : List Ptr) :
    recordsAt h (as ++ bs) = recordsAt h as ++ recordsAt h bs := by
  simp [recordsAt, List.filterMap_append]

theorem recordsAt_cons_of_some (h : Heap) {a : Ptr} {n : ExecutionQueueNode} (as : List Ptr)
    (hn : h a = some n) : recordsAt h (a :: as) = n.app :: recordsAt h as := by
  simp [recordsAt, List.filterMap_cons, hn]

/-- Every node of a segment is allocated. -/
theorem segB_mem_some {h : Heap} : ∀ (as : List Ptr) (p : Ptr), segB h p as = true →
    ∀ a ∈ as, a ≠ NULL ∧ ∃ n, h a = some n
  | [], _, _ => by simp
  | b :: as, p, hseg => by
    obtain ⟨_, hb0, n, hn, hrest⟩ := (segB_cons h p b as).1 hseg
    intro a ha
    rcases List.mem_cons.1 ha with rfl | hmem
    · exact ⟨hb0, n, hn⟩
    · exact segB_mem_some as n.next hrest a hmem

theorem recordsAt_length_of_seg {h : Heap} (as : List Ptr) (p : Ptr)
    (hseg : segB h p as = true) : (recordsAt h as).length = as.length := by
  induction as generalizing p with
  | nil => rfl
  | cons a as ih =>
    obtain ⟨_, _, n, hn, hrest⟩ := (segB_cons h p a as).1 hseg
    rw [recordsAt_cons_of_some h as hn]
    simp [ih n.next hrest]

/-- Linking a fresh node behind the last node of a non-empty segment. -/
theorem segB_snoc {h : Heap} {newNode : Ptr} (node : ExecutionQueueNode)
    (hnext : node.next = NULL) (hnn : newNode ≠ NULL) :
    ∀ (as : List Ptr) (p : Ptr) (hne : as ≠ []), segB h p as = true → as.Nodup → newNode ∉ as →
      ∀ r, (h.write newNode node) (as.getLast hne) = some r →
        segB ((h.write newNode node).write (as.getLast hne) { r with next := newNode }) p
          (as ++ [newNode]) = true
  | [], _, hne, _, _, _, _, _ => absurd rfl hne
  | [a], p, _, hseg, _, hnot, r, hr => by
    obtain ⟨hpa, ha0, n, hn, hrest⟩ := (segB_cons h p a []).1 hseg
    have hane : newNode ≠ a := fun e => hnot (by simp [e])
    simp only [List.getLast_singleton] at hr ⊢
    simp only [List.singleton_append]
    rw [segB_cons]
    refine ⟨hpa, ha0, _, Heap.write_same _ _ _, ?_⟩
    rw [segB_cons]
    refine ⟨rfl, hnn, node, ?_, ?_⟩
    · rw [Heap.write_other _ _ hane, Heap.write_same]
    · simp [segB, hnext]
  | a :: b :: rest, p, _, hseg, hnd, hnot, r, hr => by
    obtain ⟨hpa, ha0, n, hn, hrest⟩ := (segB_cons h p a (b :: rest)).1 hseg
    have hane : a ≠ newNode := fun e => hnot (by simp [e])
    have hlast : (a :: b :: rest).getLast (by simp) = (b :: rest).getLast (by simp) := by
      simp [List.getLast_cons]
    have hmemlast : (b :: rest).getLast (by simp) ∈ b :: rest := List.getLast_mem _
    have hnd2 : (b :: rest).Nodup := (List.nodup_cons.1 hnd).2
    have hanot : a ∉ b :: rest := (List.nodup_cons.1 hnd).1
    have halast : a ≠ (b :: rest).getLast (by simp) := fun e => hanot (e ▸ hmemlast)
    have hnot2 : newNode ∉ b :: rest := fun hm => hnot (List.mem_cons_of_mem a hm)
    simp only [hlast] at hr ⊢
    have ih := segB_snoc node hnext hnn (b :: rest) n.next (by simp) hrest hnd2 hnot2 r hr
    rw [List.cons_append, segB_cons]
    refine ⟨hpa, ha0, n, ?_, ih⟩
    rw [Heap.write_other _ _ halast, Heap.write_other _ _ hane, hn]

/-! ## The two queue operations on a well-formed queue -/

theorem IsQueue.not_mem_of_free {s : State} {as : List Ptr} (hq : IsQueue s as) {p : Ptr}
    (hp : s.heap p = none) : p ∉ as := by
  intro hmem
  obtain ⟨_, n, hn⟩ := segB_mem_some as _ hq.1 p hmem
  rw [hp] at hn
  exact Option.noConfusion hn

theorem IsQueue.front_eq {s : State} {as : List Ptr} (hq : IsQueue s as) :
    s.queue.front = as.headD NULL := by
  cases as with
  | nil => exact (segB_nil _ _).1 hq.1
  | cons a as => exact ((segB_cons _ _ _ _).1 hq.1).1

theorem IsQueue.front_eq_null_iff {s : State} {as : List Ptr} (hq : IsQueue s as) :
    s.queue.front = NULL ↔ as = [] := by
  cases as with
  | nil => simpa using (segB_nil _ _).1 hq.1
  | cons a as =>
    obtain ⟨hpa, ha0, _⟩ := (segB_cons _ _ _ _).1 hq.1
    simp only [reduceCtorEq, iff_false]
    rw [hpa]; exact ha0

/-- Effect of `enqueueApplication` on a well-formed queue when `malloc` hands out a fresh node. -/
theorem enqueueApplication_spec (s : State) (as : List Ptr) (newNode : Ptr)
    (filename : List Char) (status : ProcessStatus) (time : Int)
    (hq : IsQueue s as) (hnn : newNode ≠ NULL) (hfresh : s.heap newNode = none)
    (hlen : filename.length < MAX_FILENAME_LENGTH) :
    ∃ s', enqueueApplication newNode s filename status time = .ok s' ∧
      IsQueue s' (as ++ [newNode]) ∧
      s'.heap newNode = some (newQueueNode filename status time s.queue.rear) ∧
      (∀ q, q ≠ newNode → (s'.heap q).map (fun n => n.app) = (s.heap q).map (fun n => n.app)) ∧
      (∀ q, q ≠ newNode → (s'.heap q = none ↔ s.heap q = none)) ∧
      s'.currentProcess = s.currentProcess ∧ s'.start = s.start ∧ s'.finish = s.finish ∧
      s'.stdout = s.stdout ∧ s'.launched = s.launched := by
  have hnot : newNode ∉ as := hq.not_mem_of_free hfresh
  obtain ⟨hseg, hnd, hrear, hfit⟩ := hq
  have hlen2 : ¬ MAX_FILENAME_LENGTH ≤ filename.length := Nat.not_le.2 hlen
  rcases List.eq_nil_or_concat as with hnil | ⟨as0, r, hcat⟩
  · -- empty queue: the new node becomes front and rear
    subst hnil
    have hr0 : s.queue.rear = NULL := by simpa using hrear
    have hrun : enqueueApplication newNode s filename status time = .ok
        { s with heap := s.heap.write newNode (newQueueNode filename status time s.queue.rear),
                 queue := { front := newNode, rear := newNode } } := by
      simp [enqueueApplication, hnn, hlen2, hr0]
    refine ⟨_, hrun, ?_, ?_, ?_, ?_, rfl, rfl, rfl, rfl, rfl⟩
    · refine ⟨?_, by simp, by simp, ?_⟩
      · simp [segB, Heap.write, hnn, newQueueNode]
      · rw [namesFitB_iff]
        intro a ha
        have : a = newNode := by simpa using ha
        subst this
        exact ⟨_, Heap.write_same _ _ _, hlen⟩
    · exact Heap.write_same _ _ _
    · intro q hqn
      simp [Heap.write, hqn]
    · intro q hqn
      simp [Heap.write, hqn]
  · -- non-empty queue: link behind the rear node
    have hne : as ≠ [] := by rw [hcat]; simp
    have hrl : s.queue.rear = as.getLast hne := by
      rw [hrear, List.getLastD_eq_getLast?, List.getLast?_eq_getLast _ hne]; rfl
    have hrmem : as.getLast hne ∈ as := List.getLast_mem hne
    obtain ⟨hr0, rn, hrn⟩ := segB_mem_some as _ hseg _ hrmem
    have hrne : as.getLast hne ≠ newNode := fun e => hnot (by rw [← e]; exact hrmem)
    have hrne2 : newNode ≠ s.queue.rear := by rw [hrl]; exact fun e => hrne e.symm
    have hr0' : s.queue.rear ≠ NULL := by rw [hrl]; exact hr0
    have hrn' : s.heap s.queue.rear = some rn := by rw [hrl]; exact hrn
    have hw : (s.heap.write newNode (newQueueNode filename status time s.queue.rear))
        (as.getLast hne) = some rn := by
      rw [Heap.write_other _ _ hrne, hrn]
    have hderef : (s.heap.write newNode
        (newQueueNode filename status time s.queue.rear)).deref s.queue.rear = some rn := by
      rw [Heap.deref_of_ne _ hr0', Heap.write_other _ _ (fun e => hrne2 e.symm), hrn']
    have hrun : enqueueApplication newNode s filename status time = .ok
        { s with heap := (s.heap.write newNode
                    (newQueueNode filename status time s.queue.rear)).write s.queue.rear
                    { rn with next := newNode },
                 queue := { front := s.queue.front, rear := newNode } } := by
      simp [enqueueApplication, hnn, hlen2, hr0', hderef]
    refine ⟨_, hrun, ?_, ?_, ?_, ?_, rfl, rfl, rfl, rfl, rfl⟩
    · refine ⟨?_, ?_, ?_, ?_⟩
      · have := @segB_snoc s.heap newNode
          (newQueueNode filename status time s.queue.rear) rfl hnn as s.queue.front hne hseg
          hnd hnot rn hw
        show segB ((s.heap.write newNode _).write s.queue.rear _) s.queue.front _ = true
        rw [hrl]
        rw [hrl] at this
        exact this
      · rw [List.nodup_append]
        exact ⟨hnd, by simp, by
          intro a ha hb
          have : a = newNode := by simpa using hb
          exact hnot (by rw [← this]; exact ha)⟩
      · simp
      · rw [namesFitB_iff] at hfit ⊢
        intro a ha
        show ∃ n, ((s.heap.write newNode _).write s.queue.rear _) a = some n ∧ _
        rcases List.mem_append.1 ha with hmem | hmem
        · obtain ⟨n, hn, hlt⟩ := hfit a hmem
          have hane : a ≠ newNode := fun e => hnot (by rw [← e]; exact hmem)
          by_cases har : a = s.queue.rear
          · subst har
            refine ⟨{ rn with next := newNode }, Heap.write_same _ _ _, ?_⟩
            rw [hrn'] at hn
            cases hn
            exact hlt
          · refine ⟨n, ?_, hlt⟩
            rw [Heap.write_other _ _ har, Heap.write_other _ _ hane, hn]
        · have : a = newNode := by simpa using hmem
          subst this
          refine ⟨newQueueNode filename status time s.queue.rear, ?_, hlen⟩
          rw [Heap.write_other _ _ hrne2, Heap.write_same]
    · show ((s.heap.write newNode _).write s.queue.rear _) newNode = _
      rw [Heap.write_other _ _ hrne2, Heap.write_same]
    · intro q hqn
      show (((s.heap.write newNode _).write s.queue.rear _) q).map _ = _
      by_cases hqr : q = s.queue.rear
      · subst hqr
        rw [Heap.write_same, hrn']
        rfl
      · rw [Heap.write_other _ _ hqr, Heap.write_other _ _ hqn]
    · intro q hqn
      show (((s.heap.write newNode _).write s.queue.rear _) q) = none ↔ _
      by_cases hqr : q = s.queue.rear
      · subst hqr
        rw [Heap.write_same, hrn']
        simp
      · rw [Heap.write_other _ _ hqr, Heap.write_other _ _ hqn]

/-- Effect of `dequeueApplication` on a well-formed non-empty queue. -/
theorem dequeueApplication_spec (s : State) (a : Ptr) (rest : List Ptr)
    (hq : IsQueue s (a :: rest)) :
    ∃ s', dequeueApplication s = .ok s' ∧ IsQueue s' rest ∧
      s'.heap = s.heap.free a ∧
      s'.currentProcess = rest.headD NULL ∧ s'.queue.front = rest.headD NULL ∧
      s'.start = s.start ∧ s'.finish = s.finish ∧
      s'.stdout = s.stdout ∧ s'.launched = s.launched := by
  obtain ⟨hseg, hnd, hrear, hfit⟩ := hq
  obtain ⟨hpa, ha0, n, hn, hrest⟩ := (segB_cons _ _ _ _).1 hseg
  have hanot : a ∉ rest := (List.nodup_cons.1 hnd).1
  have hnd2 : rest.Nodup := (List.nodup_cons.1 hnd).2
  have hf0 : s.queue.front ≠ NULL := by rw [hpa]; exact ha0
  have hderef : s.heap.deref s.queue.front = some n := by
    rw [Heap.deref_of_ne _ hf0, hpa, hn]
  have hother : ∀ b ∈ rest, (s.heap.free a) b = s.heap b := fun b hb =>
    Heap.free_other _ (fun e => hanot (by rw [← e]; exact hb))
  have hseg2 : segB (s.heap.free a) n.next rest = true := by
    rw [segB_congr rest n.next hother]
    exact hrest
  have hnext : n.next = rest.headD NULL := by
    cases rest with
    | nil => exact (segB_nil _ _).1 hrest
    | cons b rest => exact ((segB_cons _ _ _ _).1 hrest).1
  have hrun : dequeueApplication s = .ok
      { s with heap := s.heap.free s.queue.front,
               queue := { front := n.next,
                          rear := if n.next = NULL then NULL else s.queue.rear },
               currentProcess := n.next } := by
    simp [dequeueApplication, hf0, hderef]
  refine ⟨_, hrun, ?_, ?_, ?_, ?_, rfl, rfl, rfl, rfl⟩
  · refine ⟨?_, hnd2, ?_, ?_⟩
    · show segB (s.heap.free s.queue.front) n.next rest = true
      rw [hpa]; exact hseg2
    · show (if n.next = NULL then NULL else s.queue.rear) = rest.getLastD NULL
      cases rest with
      | nil => simp [hnext]
      | cons b rest =>
        obtain ⟨hb, hb0, _⟩ := (segB_cons _ _ _ _).1 hrest
        have : n.next ≠ NULL := by rw [hb]; exact hb0
        simp only [this, if_false, hrear]
        simp [List.getLastD_cons]
    · show namesFitB (s.heap.free s.queue.front) rest = true
      rw [namesFitB_iff] at hfit ⊢
      intro b hb
      obtain ⟨m, hm, hlt⟩ := hfit b (List.mem_cons_of_mem a hb)
      refine ⟨m, ?_, hlt⟩
      rw [hpa, hother b hb, hm]
  · show s.heap.free s.queue.front = s.heap.free a
    rw [hpa]
  · exact hnext
  · exact hnext

/-- Overwriting the application record of an allocated node keeps every segment. -/
theorem segB_write_app {h : Heap} {a : Ptr} {n : ExecutionQueueNode} (hn : h a = some n)
    (app' : Application) : ∀ (as : List Ptr) (p : Ptr), segB h p as = true →
      segB (h.write a { n with app := app' }) p as = true
  | [], p, hseg => by simpa [segB] using hseg
  | b :: as, p, hseg => by
    obtain ⟨hpb, hb0, m, hm, hrest⟩ := (segB_cons h p b as).1 hseg
    rw [segB_cons]
    by_cases hba : b = a
    · subst hba
      rw [hn] at hm
      cases hm
      exact ⟨hpb, hb0, _, Heap.write_same _ _ _, segB_write_app hn app' as _ hrest⟩
    · exact ⟨hpb, hb0, m, by rw [Heap.write_other _ _ hba, hm],
        segB_write_app hn app' as _ hrest⟩

/-- Overwriting the application record of an allocated node, with a name that fits, keeps the
queue well formed. -/
theorem IsQueue.write_app {s s' : State} {as : List Ptr} (hq : IsQueue s as) {a : Ptr}
    {n : ExecutionQueueNode} (hn : s.heap a = some n) (app' : Application)
    (hfit : app'.filename.length < MAX_FILENAME_LENGTH)
    (hheap : s'.heap = s.heap.write a { n with app := app' }) (hqueue : s'.queue = s.queue) :
    IsQueue s' as := by
  obtain ⟨hseg, hnd, hrear, hnames⟩ := hq
  refine ⟨?_, hnd, by rw [hqueue]; exact hrear, ?_⟩
  · rw [hheap, hqueue]
    exact segB_write_app hn app' as _ hseg
  · rw [namesFitB_iff] at hnames ⊢
    intro b hb
    rw [hheap]
    by_cases hba : b = a
    · subst hba
      exact ⟨_, Heap.write_same _ _ _, hfit⟩
    · obtain ⟨m, hm, hlt⟩ := hnames b hb
      exact ⟨m, by rw [Heap.write_other _ _ hba, hm], hlt⟩

theorem IsQueue.head_some {s : State} {a : Ptr} {rest : List Ptr} (hq : IsQueue s (a :: rest)) :
    s.queue.front = a ∧ a ≠ NULL ∧ a ∉ rest ∧
      ∃ n, s.heap a = some n ∧ n.app.filename.length < MAX_FILENAME_LENGTH := by
  obtain ⟨hseg, hnd, _, hnames⟩ := hq
  obtain ⟨hpa, ha0, _, _, _⟩ := (segB_cons _ _ _ _).1 hseg
  rw [namesFitB_iff] at hnames
  exact ⟨hpa, ha0, (List.nodup_cons.1 hnd).1, hnames a (List.mem_cons_self a rest)⟩

/-! ## First come, first served -/

/-- One pass of the FCFS loop on a well-formed non-empty queue whose head is current. -/
theorem fcfsBody_spec (t : FCFSTurn) (s : State) (a : Ptr) (rest : List Ptr)
    (hq : IsQueue s (a :: rest)) (hcur : s.currentProcess = s.queue.front) (hpid : 0 < t.pid) :
    ∃ s' n, s.heap a = some n ∧ fcfsBody t s = .ok s' ∧ IsQueue s' rest ∧
      s'.currentProcess = s'.queue.front ∧
      s'.stdout = s.stdout ++ [{ name := n.app.filename, time := t.finish - s.start }] ∧
      s'.launched = s.launched ++ [(t.pid, n.app.filename)] ∧
      s'.start = s.start ∧ recordsAt s'.heap rest = recordsAt s.heap rest := by
  obtain ⟨hfa, ha0, hanot, n, hn, hfit⟩ := hq.head_some
  have hca : s.currentProcess = a := by rw [hcur, hfa]
  have h1 : t.pid ≠ -1 := by omega
  have h2 : t.pid ≠ 0 := by omega
  have hderef : s.heap.deref s.currentProcess = some n := by
    rw [hca, Heap.deref_of_ne _ ha0, hn]
  have hq1 : IsQueue
      { s with
        heap := s.heap.write s.currentProcess
          { n with app := { n.app with executionTime := t.finish - s.start } },
        finish := t.finish,
        stdout := s.stdout ++ [{ name := n.app.filename, time := t.finish - s.start }],
        launched := s.launched ++ [(t.pid, n.app.filename)] } (a :: rest) :=
    hq.write_app hn { n.app with executionTime := t.finish - s.start } hfit (by rw [hca]) rfl
  obtain ⟨s', hrun, hq', hheap, hcur', hfront', hstart, _, hout, hlaunch⟩ :=
    dequeueApplication_spec _ a rest hq1
  refine ⟨s', n, hn, ?_, hq', by rw [hcur', hfront'], hout, hlaunch, hstart, ?_⟩
  · simp only [fcfsBody, h1, h2, if_false, hderef]
    exact hrun
  · apply recordsAt_congr
    intro b hb
    have hba : b ≠ a := fun e => hanot (by rw [← e]; exact hb)
    rw [hheap, Heap.free_other _ hba]
    show (s.heap.write s.currentProcess _ b).map _ = _
    rw [hca, Heap.write_other _ _ hba]

/-- The FCFS loop drains a well-formed queue, printing one line for each record in queue order. -/
theorem fcfsLoop_spec : ∀ (as : List Ptr) (turns : List FCFSTurn) (s : State),
    IsQueue s as → s.currentProcess = s.queue.front → as.length ≤ turns.length →
    (∀ t ∈ turns, 0 < t.pid) →
    ∃ s', fcfsLoop turns s = some (.ok s') ∧ IsQueue s' [] ∧
      s'.stdout = s.stdout ++
        List.zipWith (fun (r : Application) (t : FCFSTurn) =>
          ({ name := r.filename, time := t.finish - s.start } : Completion))
          (recordsAt s.heap as) turns
  | [], turns, s, hq, _, _, _ => by
    have hf : s.queue.front = NULL := hq.front_eq_null_iff.2 rfl
    refine ⟨s, ?_, hq, by simp [recordsAt]⟩
    cases turns <;> simp [fcfsLoop, hf]
  | a :: rest, [], s, _, _, hlen, _ => by simp at hlen
  | a :: rest, t :: ts, s, hq, hcur, hlen, hfork => by
    have hf : s.queue.front ≠ NULL := fun e => by
      have := hq.front_eq_null_iff.1 e
      simp at this
    obtain ⟨s1, n, hn, hbody, hq1, hcur1, hout1, _, hstart1, hrec1⟩ :=
      fcfsBody_spec t s a rest hq hcur (hfork t (List.mem_cons_self t ts))
    obtain ⟨s', hrun, hq', hout'⟩ := fcfsLoop_spec rest ts s1 hq1 hcur1
      (by simpa using hlen) (fun u hu => hfork u (List.mem_cons_of_mem t hu))
    refine ⟨s', ?_, hq', ?_⟩
    · simp only [fcfsLoop, hf, if_false, hbody]
      exact hrun
    · rw [hout', hout1, hstart1, hrec1, recordsAt_cons_of_some _ _ hn]
      simp

/-! ## Round robin -/

/-- One pass of the round-robin loop on a well-formed non-empty queue whose head is current:
the head node is released and a fresh STOPPED record with the same name and the summed time
is linked at the rear. -/
theorem rrBody_spec (start quantum : Int) (t : RRTurn) (s : State) (a : Ptr) (rest : List Ptr)
    (hq : IsQueue s (a :: rest)) (hcur : s.currentProcess = s.queue.front) (hpid : 0 < t.pid)
    (hnn : t.newNode ≠ NULL) (hfresh : s.heap t.newNode = none) :
    ∃ s1 s' n, s.heap a = some n ∧ rrAccount start t s = .ok s1 ∧
      s1.heap a = some { n with app := { n.app with
        pid := some t.pid, status := .RUNNING,
        executionTime := n.app.executionTime + (t.finish - start) } } ∧
      rrBody start quantum t s = .ok s' ∧ IsQueue s' (rest ++ [t.newNode]) ∧
      s'.currentProcess = s'.queue.front ∧
      recordsAt s'.heap (rest ++ [t.newNode]) = recordsAt s.heap rest ++
        [{ filename := n.app.filename, pid := none, status := .STOPPED,
           executionTime := n.app.executionTime + (t.finish - start) }] ∧
      s'.stdout = s.stdout ∧ s'.launched = s.launched ++ [(t.pid, n.app.filename)] ∧
      (IsQueue s1 (a :: rest) ∧ s1.currentProcess = a ∧
        recordsAt s1.heap rest = recordsAt s.heap rest) ∧
      ∃ s2, rrRequeue t s1 = .ok s2 ∧ rrFinish s2 = .ok s' ∧
        IsQueue s2 (a :: (rest ++ [t.newNode])) ∧ s2.currentProcess = a ∧
        recordsAt s2.heap (rest ++ [t.newNode]) = recordsAt s.heap rest ++
          [{ filename := n.app.filename, pid := none, status := .STOPPED,
             executionTime := n.app.executionTime + (t.finish - start) }] := by
  obtain ⟨hfa, ha0, hanot, n, hn, hfit⟩ := hq.head_some
  have hca : s.currentProcess = a := by rw [hcur, hfa]
  have h1 : t.pid ≠ -1 := by omega
  have h2 : t.pid ≠ 0 := by omega
  have hna : t.newNode ≠ a := fun e => by rw [e, hn] at hfresh; exact Option.noConfusion hfresh
  have hderef : s.heap.deref s.currentProcess = some n := by
    rw [hca, Heap.deref_of_ne _ ha0, hn]
  -- lines 160-171
  have hacc : rrAccount start t s = .ok
      { s with
        heap := s.heap.write s.currentProcess
          { n with app := { n.app with
              pid := some t.pid, status := .RUNNING,
              executionTime := n.app.executionTime + (t.finish - start) } },
        launched := s.launched ++ [(t.pid, n.app.filename)] } := by
    simp only [rrAccount, hderef]
  obtain ⟨s1, hs1⟩ : ∃ s1 : State, s1 =
      { s with
        heap := s.heap.write s.currentProcess
          { n with app := { n.app with
              pid := some t.pid, status := .RUNNING,
              executionTime := n.app.executionTime + (t.finish - start) } },
        launched := s.launched ++ [(t.pid, n.app.filename)] } := ⟨_, rfl⟩
  rw [← hs1] at hacc
  have hheap1 : s1.heap = s.heap.write a
      { n with app := { n.app with
          pid := some t.pid, status := .RUNNING,
          executionTime := n.app.executionTime + (t.finish - start) } } := by
    rw [hs1, hca]
  have hcur1 : s1.currentProcess = a := by rw [hs1]; exact hca
  have hq1 : IsQueue s1 (a :: rest) :=
    hq.write_app hn { n.app with
          pid := some t.pid, status := .RUNNING,
          executionTime := n.app.executionTime + (t.finish - start) } hfit hheap1 (by rw [hs1])
  have hn1 : s1.heap a = some
      { n with app := { n.app with
          pid := some t.pid, status := .RUNNING,
          executionTime := n.app.executionTime + (t.finish - start) } } := by
    rw [hheap1, Heap.write_same]
  have hfresh1 : s1.heap t.newNode = none := by
    rw [hheap1, Heap.write_other _ _ hna, hfresh]
  have hderef1 : s1.heap.deref s1.currentProcess = some
      { n with app := { n.app with
          pid := some t.pid, status := .RUNNING,
          executionTime := n.app.executionTime + (t.finish - start) } } := by
    rw [hcur1, Heap.deref_of_ne _ ha0, hn1]
  -- line 174
  obtain ⟨s2, henq, hq2, hnew2, happ2, _, hcur2, _, _, hout2, hlaunch2⟩ :=
    enqueueApplication_spec s1 (a :: rest) t.newNode n.app.filename .STOPPED
      (n.app.executionTime + (t.finish - start)) hq1 hnn hfresh1 hfit
  have hreq : rrRequeue t s1 = .ok s2 := by
    simp only [rrRequeue, hderef1]
    exact henq
  -- lines 177-186
  have hq2' : IsQueue s2 (a :: (rest ++ [t.newNode])) := by simpa using hq2
  obtain ⟨_, _, hanot2, n2, hn2, hfit2⟩ := hq2'.head_some
  have hnd2 : (rest ++ [t.newNode]).Nodup := (List.nodup_cons.1 hq2'.2.1).2
  have hcur2' : s2.currentProcess = a := by rw [hcur2, hcur1]
  have hderef2 : s2.heap.deref s2.currentProcess = some n2 := by
    rw [hcur2', Heap.deref_of_ne _ ha0, hn2]
  have hq3 : IsQueue
      { s2 with heap := s2.heap.write s2.currentProcess
                  { n2 with app := { n2.app with status := .EXITED } } }
      (a :: (rest ++ [t.newNode])) :=
    hq2'.write_app hn2 { n2.app with status := .EXITED } hfit2 (by rw [hcur2']) rfl
  obtain ⟨s', hdeq, hq', hheap', hcur', hfront', _, _, hout', hlaunch'⟩ :=
    dequeueApplication_spec _ a (rest ++ [t.newNode]) hq3
  have hfin : rrFinish s2 = .ok s' := by
    simp only [rrFinish, hderef2]
    exact hdeq
  have hkeep : ∀ q, q ≠ a → s'.heap q = s2.heap q := by
    intro q hqa
    rw [hheap', Heap.free_other _ hqa]
    show s2.heap.write s2.currentProcess _ q = _
    rw [hcur2', Heap.write_other _ _ hqa]
  have hrec1 : recordsAt s1.heap rest = recordsAt s.heap rest := by
    apply recordsAt_congr
    intro b hb
    rw [hheap1, Heap.write_other _ _ (fun e => hanot (by rw [← e]; exact hb))]
  have hrec2 : recordsAt s2.heap (rest ++ [t.newNode]) = recordsAt s.heap rest ++
      [{ filename := n.app.filename, pid := none, status := .STOPPED,
         executionTime := n.app.executionTime + (t.finish - start) }] := by
    rw [recordsAt_append, ← hrec1]
    congr 1
    · apply recordsAt_congr
      intro b hb
      have hbn : b ≠ t.newNode := fun e =>
        (List.nodup_append.1 hnd2).2.2 hb (by rw [e]; exact List.mem_singleton_self _)
      exact happ2 b hbn
    · rw [recordsAt_cons_of_some _ _ hnew2]
      simp [recordsAt, newQueueNode]
  have hrec' : recordsAt s'.heap (rest ++ [t.newNode]) =
      recordsAt s2.heap (rest ++ [t.newNode]) := by
    apply recordsAt_congr
    intro b hb
    rw [hkeep b (fun e => hanot2 (by rw [← e]; exact hb))]
  refine ⟨s1, s', n, hn, hacc, hn1, ?_, hq', by rw [hcur', hfront'], by rw [hrec', hrec2],
    by rw [hout', hout2, hs1], by rw [hlaunch', hlaunch2, hs1], ⟨hq1, hcur1, hrec1⟩,
    s2, hreq, hfin, hq2', hcur2', hrec2⟩
  simp only [rrBody, h1, h2, if_false, hacc, hreq]
  exact hfin

theorem rrNominalB_cons (start quantum : Int) (t : RRTurn) (ts : List RRTurn) (s : State) :
    rrNominalB start quantum (t :: ts) s = true ↔
      0 < t.pid ∧ t.newNode ≠ NULL ∧ s.heap t.newNode = none ∧
        ∀ s', rrBody start quantum t s = .ok s' → rrNominalB start quantum ts s' = true := by
  cases hb : rrBody start quantum t s with
  | ok s1 => simp [rrNominalB, hb, and_assoc]
  | error e => simp [rrNominalB, hb, and_assoc]

/-- The round-robin loop never runs out of records: after any number of passes the queue
holds as many records as before, so the loop asks for yet another pass. -/
theorem rrLoop_spec (start quantum : Int) : ∀ (turns : List RRTurn) (s : State) (as : List Ptr),
    IsQueue s as → as ≠ [] → s.currentProcess = s.queue.front →
    rrNominalB start quantum turns s = true →
    rrLoop start quantum turns s = none ∧
      ∃ s' bs, rrAfter start quantum turns s = .ok s' ∧ IsQueue s' bs ∧
        bs.length = as.length ∧ s'.currentProcess = s'.queue.front
  | [], s, as, hq, hne, hcur, _ => by
    have hf : s.queue.front ≠ NULL := fun e => hne (hq.front_eq_null_iff.1 e)
    exact ⟨by simp [rrLoop, hf], s, as, rfl, hq, rfl, hcur⟩
  | t :: ts, s, [], _, hne, _, _ => absurd rfl hne
  | t :: ts, s, a :: rest, hq, _, hcur, hnom => by
    have hf : s.queue.front ≠ NULL := fun e => by
      have := hq.front_eq_null_iff.1 e
      simp at this
    obtain ⟨hpid, hnn, hfresh, hnext⟩ := (rrNominalB_cons start quantum t ts s).1 hnom
    obtain ⟨_, s1, _, _, _, _, hbody, hq1, hcur1, _, _, _⟩ :=
      rrBody_spec start quantum t s a rest hq hcur hpid hnn hfresh
    obtain ⟨hloop, s', bs, hafter, hq', hlen, hcur'⟩ :=
      rrLoop_spec start quantum ts s1 (rest ++ [t.newNode]) hq1 (by simp) hcur1
        (hnext s1 hbody)
    refine ⟨?_, s', bs, ?_, hq', by simpa using hlen, hcur'⟩
    · simp only [rrLoop, hf, if_false, hbody]
      exact hloop
    · simp only [rrAfter, hf, if_false, hbody]
      exact hafter

/-! ## Reading the input file -/

theorem newline_ne_NUL : newline ≠ NUL := by decide

/-- The records of the queue after `enqueueApplication`: the old ones, then the new one. -/
theorem enqueueApplication_records (s : State) (as : List Ptr) (newNode : Ptr)
    (filename : List Char) (status : ProcessStatus) (time : Int)
    (hq : IsQueue s as) (hnn : newNode ≠ NULL) (hfresh : s.heap newNode = none)
    (hlen : filename.length < MAX_FILENAME_LENGTH) :
    ∃ s', enqueueApplication newNode s filename status time = .ok s' ∧
      IsQueue s' (as ++ [newNode]) ∧
      recordsAt s'.heap (as ++ [newNode]) =
        recordsAt s.heap as ++ [freshRecord filename status time] ∧
      (∀ q, q ≠ newNode → (s'.heap q = none ↔ s.heap q = none)) ∧
      s'.currentProcess = s.currentProcess ∧ s'.stdout = s.stdout := by
  have hnot : newNode ∉ as := hq.not_mem_of_free hfresh
  obtain ⟨s', hrun, hq', hnew, happ, hnone, hcur, _, _, hout, _⟩ :=
    enqueueApplication_spec s as newNode filename status time hq hnn hfresh hlen
  refine ⟨s', hrun, hq', ?_, hnone, hcur, hout⟩
  rw [recordsAt_append]
  congr 1
  · apply recordsAt_congr
    intro b hb
    exact happ b (fun e => hnot (by rw [← e]; exact hb))
  · rw [recordsAt_cons_of_some _ _ hnew]
    simp [recordsAt, newQueueNode, freshRecord]

theorem fgetsChars_line : ∀ (l : List Char) (n : Nat) (rest : List Char),
    newline ∉ l → l.length < n → fgetsChars n (l ++ newline :: rest) = (l ++ [newline], rest)
  | [], 0, _, _, hlt => absurd hlt (Nat.lt_irrefl 0)
  | [], n + 1, rest, _, _ => by simp [fgetsChars]
  | c :: l, 0, _, _, hlt => absurd hlt (Nat.not_lt_zero _)
  | c :: l, n + 1, rest, hnl, hlt => by
    have hc : c ≠ newline := fun e => hnl (by simp [e])
    have hl : newline ∉ l := fun hm => hnl (List.mem_cons_of_mem c hm)
    have ih := fgetsChars_line l n rest hl (by simpa using hlt)
    simp [fgetsChars, hc, ih]

theorem fgets_line (l rest : List Char) (hnl : newline ∉ l)
    (hlen : l.length + 1 < MAX_FILENAME_LENGTH) :
    fgets MAX_FILENAME_LENGTH (l ++ newline :: rest) = some (l ++ [newline], rest) := by
  have hlt : l.length < MAX_FILENAME_LENGTH - 1 := by omega
  have := fgetsChars_line l (MAX_FILENAME_LENGTH - 1) rest hnl hlt
  cases l with
  | nil => simpa [fgets] using this
  | cons c l => simpa [fgets] using this

theorem cstring_append_NUL : ∀ (l r : List Char), NUL ∉ l → cstring (l ++ NUL :: r) = l
  | [], r, _ => by simp [cstring]
  | c :: l, r, h => by
    have hc : c ≠ NUL := fun e => h (by simp [e])
    have hl : NUL ∉ l := fun hm => h (List.mem_cons_of_mem c hm)
    have ih := cstring_append_NUL l r hl
    simp only [cstring] at ih ⊢
    simp only [decide_not] at ih
    simp [List.takeWhile_cons, hc, ih]

theorem strcspn_line : ∀ (l : List Char), NUL ∉ l → newline ∉ l →
    strcspn (l ++ [newline]) [newline] = l.length
  | [], _, _ => by
    simp [strcspn, cstring, List.takeWhile_cons, newline_ne_NUL]
  | c :: l, h0, hn => by
    have hc0 : c ≠ NUL := fun e => h0 (by simp [e])
    have hcn : c ≠ newline := fun e => hn (by simp [e])
    have ih := strcspn_line l (fun hm => h0 (List.mem_cons_of_mem c hm))
      (fun hm => hn (List.mem_cons_of_mem c hm))
    simp only [strcspn, cstring] at ih ⊢
    simp only [decide_not, List.contains_cons, List.contains_nil, Bool.or_false,
      beq_iff_eq] at ih
    simp [List.takeWhile_cons, hc0, hcn]
    simpa using ih

/-- The name taken from a line of text that fits the buffer is the line without its line feed. -/
theorem line_name (l : List Char) (h0 : NUL ∉ l) (hn : newline ∉ l) :
    cstring (setNul (l ++ [newline]) (strcspn (l ++ [newline]) [newline])) = l := by
  rw [strcspn_line l h0 hn]
  have : setNul (l ++ [newline]) l.length = l ++ NUL :: [] := by
    simp [setNul]
  rw [this]
  exact cstring_append_NUL l [] h0

/-- Parsing a text whose lines fit the buffer appends one NEW record with time 0 for each line. -/
theorem mainParseLoop_spec : ∀ (lines : List (List Char)) (mallocs : List Ptr) (s : State)
    (as : List Ptr), IsQueue s as →
    (∀ l ∈ lines, newline ∉ l ∧ NUL ∉ l ∧ l.length + 1 < MAX_FILENAME_LENGTH) →
    mallocs.length = lines.length → mallocs.Nodup →
    (∀ q ∈ mallocs, q ≠ NULL ∧ s.heap q = none) →
    ∃ s', mainParseLoop mallocs (fileOfLines lines) s = some (.ok s') ∧
      IsQueue s' (as ++ mallocs) ∧
      recordsAt s'.heap (as ++ mallocs) =
        recordsAt s.heap as ++ lines.map (fun l => freshRecord l .NEW 0) ∧
      s'.currentProcess = s.currentProcess ∧ s'.stdout = s.stdout
  | [], [], s, as, hq, _, _, _, _ => by
    refine ⟨s, by simp [mainParseLoop, fileOfLines, fgets], by simpa using hq, by simp, rfl, rfl⟩
  | [], _ :: _, _, _, _, _, hlen, _, _ => by simp at hlen
  | _ :: _, [], _, _, _, _, hlen, _, _ => by simp at hlen
  | l :: ls, p :: ps, s, as, hq, hlines, hlen, hnd, hfresh => by
    obtain ⟨hnl, h0, hfit⟩ := hlines l (List.mem_cons_self l ls)
    obtain ⟨hp0, hpfree⟩ := hfresh p (List.mem_cons_self p ps)
    have hpnot : p ∉ ps := (List.nodup_cons.1 hnd).1
    obtain ⟨s1, henq, hq1, hrec1, hnone1, hcur1, hout1⟩ :=
      enqueueApplication_records s as p l .NEW 0 hq hp0 hpfree (by omega)
    obtain ⟨s', hrun, hq', hrec', hcur', hout'⟩ :=
      mainParseLoop_spec ls ps s1 (as ++ [p]) hq1
        (fun m hm => hlines m (List.mem_cons_of_mem l hm)) (by simpa using hlen)
        (List.nodup_cons.1 hnd).2
        (fun q hq => by
          have hqp : q ≠ p := fun e => hpnot (by rw [← e]; exact hq)
          exact ⟨(hfresh q (List.mem_cons_of_mem p hq)).1,
            (hnone1 q hqp).2 (hfresh q (List.mem_cons_of_mem p hq)).2⟩)
    refine ⟨s', ?_, by simpa using hq', ?_, by rw [hcur', hcur1], by rw [hout', hout1]⟩
    · simp only [mainParseLoop, fileOfLines, fgets_line l _ hnl hfit, line_name l h0 hnl, henq]
      exact hrun
    · have : as ++ p :: ps = (as ++ [p]) ++ ps := by simp
      rw [this, hrec', hrec1]
      simp

/-! ## Repeated queue operations -/

theorem IsQueue.of_eq {s s' : State} {as : List Ptr} (hq : IsQueue s as)
    (hheap : s'.heap = s.heap) (hqueue : s'.queue = s.queue) : IsQueue s' as := by
  unfold IsQueue at hq ⊢
  rw [hheap, hqueue]
  exact hq

theorem enqueueAll_spec : ∀ (calls : List EnqueueCall) (s : State) (as : List Ptr),
    IsQueue s as → (calls.map EnqueueCall.newNode).Nodup →
    (∀ c ∈ calls, c.newNode ≠ NULL ∧ s.heap c.newNode = none ∧
      c.filename.length < MAX_FILENAME_LENGTH) →
    ∃ s', enqueueAll calls s = .ok s' ∧ IsQueue s' (as ++ calls.map EnqueueCall.newNode) ∧
      recordsAt s'.heap (as ++ calls.map EnqueueCall.newNode) =
        recordsAt s.heap as ++ calls.map (fun c => freshRecord c.filename c.status c.time)
  | [], s, as, hq, _, _ => ⟨s, rfl, by simpa using hq, by simp⟩
  | c :: cs, s, as, hq, hnd, hcalls => by
    obtain ⟨hc0, hcfree, hcfit⟩ := hcalls c (List.mem_cons_self c cs)
    have hnd' : c.newNode ∉ cs.map EnqueueCall.newNode ∧ (cs.map EnqueueCall.newNode).Nodup := by
      simpa using hnd
    obtain ⟨s1, henq, hq1, hrec1, hnone1, _, _⟩ :=
      enqueueApplication_records s as c.newNode c.filename c.status c.time hq hc0 hcfree hcfit
    obtain ⟨s', hrun, hq', hrec'⟩ := enqueueAll_spec cs s1 (as ++ [c.newNode]) hq1 hnd'.2
      (fun d hd => by
        obtain ⟨hd0, hdfree, hdfit⟩ := hcalls d (List.mem_cons_of_mem c hd)
        have hdc : d.newNode ≠ c.newNode := fun e =>
          hnd'.1 (by rw [← e]; exact List.mem_map_of_mem _ hd)
        exact ⟨hd0, (hnone1 _ hdc).2 hdfree, hdfit⟩)
    refine ⟨s', ?_, by simpa using hq', ?_⟩
    · simp only [enqueueAll, henq]
      exact hrun
    · have : as ++ List.map EnqueueCall.newNode (c :: cs) =
          (as ++ [c.newNode]) ++ List.map EnqueueCall.newNode cs := by simp
      rw [this, hrec', hrec1]
      simp

theorem dequeueTimes_spec : ∀ (k : Nat) (s : State) (as : List Ptr),
    IsQueue s as → k ≤ as.length →
    ∃ s', dequeueTimes k s = .ok s' ∧ IsQueue s' (as.drop k) ∧
      recordsAt s'.heap (as.drop k) = (recordsAt s.heap as).drop k
  | 0, s, as, hq, _ => ⟨s, rfl, by simpa using hq, by simp⟩
  | k + 1, s, [], _, hk => by simp at hk
  | k + 1, s, a :: rest, hq, hk => by
    obtain ⟨_, _, hanot, n, hn, _⟩ := hq.head_some
    obtain ⟨s1, hdeq, hq1, hheap1, _⟩ := dequeueApplication_spec s a rest hq
    obtain ⟨s', hrun, hq', hrec'⟩ := dequeueTimes_spec k s1 rest hq1 (by simpa using hk)
    refine ⟨s', ?_, by simpa using hq', ?_⟩
    · simp only [dequeueTimes, hdeq]
      exact hrun
    · have hrest : recordsAt s1.heap rest = recordsAt s.heap rest := by
        apply recordsAt_congr
        intro b hb
        rw [hheap1, Heap.free_other _ (fun e => hanot (by rw [← e]; exact hb))]
      rw [List.drop_succ_cons, hrec', hrest, recordsAt_cons_of_some _ _ hn, List.drop_succ_cons]

theorem zipWith_names : ∀ (rs : List Application) (turns : List FCFSTurn) (start : Int),
    rs.length ≤ turns.length →
    (List.zipWith (fun (r : Application) (t : FCFSTurn) =>
        ({ name := r.filename, time := t.finish - start } : Completion)) rs turns).map
      Completion.name = rs.map Application.filename
  | [], _, _, _ => by simp
  | _ :: _, [], _, h => by simp at h
  | r :: rs, t :: ts, start, h => by
    have ih := zipWith_names rs ts start (by simpa using h)
    simp [List.zipWith, ih]

theorem rrAfter_nominal (start quantum : Int) : ∀ (pre post : List RRTurn) (s : State)
    (as : List Ptr), IsQueue s as → as ≠ [] → s.currentProcess = s.queue.front →
    rrNominalB start quantum (pre ++ post) s = true →
    ∃ sk bs, rrAfter start quantum pre s = .ok sk ∧ IsQueue sk bs ∧ bs.length = as.length ∧
      sk.currentProcess = sk.queue.front ∧ rrNominalB start quantum post sk = true
  | [], post, s, as, hq, _, hcur, hnom => ⟨s, as, rfl, hq, rfl, hcur, by simpa using hnom⟩
  | t :: ts, post, s, [], _, hne, _, _ => absurd rfl hne
  | t :: ts, post, s, a :: rest, hq, _, hcur, hnom => by
    have hf : s.queue.front ≠ NULL := fun e => by
      have := hq.front_eq_null_iff.1 e
      simp at this
    obtain ⟨hpid, hnn, hfresh, hnext⟩ :=
      (rrNominalB_cons start quantum t (ts ++ post) s).1 (by simpa using hnom)
    obtain ⟨_, s1, _, _, _, _, hbody, hq1, hcur1, _, _, _⟩ :=
      rrBody_spec start quantum t s a rest hq hcur hpid hnn hfresh
    obtain ⟨sk, bs, hafter, hqk, hlen, hcurk, hnomk⟩ :=
      rrAfter_nominal start quantum ts post s1 (rest ++ [t.newNode]) hq1 (by simp) hcur1
        (hnext s1 hbody)
    refine ⟨sk, bs, ?_, hqk, by simpa using hlen, hcurk, hnomk⟩
    simp only [rrAfter, hf, if_false, hbody]
    exact hafter

/-! ## The SIGCHLD handler and the shape of reachable states -/

theorem mem_recordsAt_of_tail {h : Heap} {as : List Ptr} {x : Application}
    (hx : x ∈ recordsAt h as.tail) : x ∈ recordsAt h as := by
  unfold recordsAt at hx ⊢
  rw [List.mem_filterMap] at hx ⊢
  obtain ⟨b, hb, hbx⟩ := hx
  exact ⟨b, List.mem_of_mem_tail hb, hbx⟩

/-- After the input is parsed and `currentProcess` is set to the front (line 262), no record
carries a process handle. -/
theorem parsed_onlyFrontLaunched (lines : List (List Char)) (mallocs : List Ptr)
    (hlines : ∀ l ∈ lines, newline ∉ l ∧ NUL ∉ l ∧ l.length + 1 < MAX_FILENAME_LENGTH)
    (hlen : mallocs.length = lines.length) (hnd : mallocs.Nodup)
    (h0 : ∀ q ∈ mallocs, q ≠ NULL) :
    ∃ s, mainParseLoop mallocs (fileOfLines lines) initialState = some (.ok s) ∧
      OnlyFrontLaunched { s with currentProcess := s.queue.front } mallocs := by
  obtain ⟨s, hrun, hq, hrec, _⟩ := mainParseLoop_spec lines mallocs initialState []
    (by decide) hlines hlen hnd (fun q hq => ⟨h0 q hq, rfl⟩)
  have hq' : IsQueue s mallocs := by simpa using hq
  have hrec' : recordsAt s.heap mallocs = lines.map (fun l => freshRecord l .NEW 0) := by
    simpa [recordsAt] using hrec
  refine ⟨s, hrun, hq'.of_eq rfl rfl, rfl, ?_⟩
  intro x hx
  have hx' : x ∈ recordsAt s.heap mallocs := mem_recordsAt_of_tail hx
  rw [hrec', List.mem_map] at hx'
  obtain ⟨l, _, hl⟩ := hx'
  rw [← hl]
  rfl

/-- Each step of a round-robin pass keeps the shape: after lines 160-171, after the enqueue of
line 174, and after the dequeue of line 186. -/
theorem rrBody_onlyFrontLaunched (start quantum : Int) (t : RRTurn) (s : State) (a : Ptr)
    (rest : List Ptr) (hinv : OnlyFrontLaunched s (a :: rest)) (hpid : 0 < t.pid)
    (hnn : t.newNode ≠ NULL) (hfresh : s.heap t.newNode = none) :
    ∃ s1 s2 s', rrAccount start t s = .ok s1 ∧ rrRequeue t s1 = .ok s2 ∧
      rrFinish s2 = .ok s' ∧ rrBody start quantum t s = .ok s' ∧
      OnlyFrontLaunched s1 (a :: rest) ∧
      OnlyFrontLaunched s2 (a :: (rest ++ [t.newNode])) ∧
      OnlyFrontLaunched s' (rest ++ [t.newNode]) := by
  obtain ⟨hq, hcur, honly⟩ := hinv
  obtain ⟨s1, s', n, _, hacc, _, hbody, hq', hcur', hrec', _, _, ⟨hq1, hcur1, hrec1⟩,
    s2, hreq, hfin, hq2, hcur2, hrec2⟩ :=
    rrBody_spec start quantum t s a rest hq hcur hpid hnn hfresh
  have hnone : ∀ x ∈ recordsAt s.heap rest ++
      [({ filename := n.app.filename, pid := none, status := .STOPPED,
          executionTime := n.app.executionTime + (t.finish - start) } : Application)],
      x.pid = none := by
    intro x hx
    rcases List.mem_append.1 hx with hx | hx
    · exact honly x hx
    · have : x = _ := List.mem_singleton.1 hx
      rw [this]
  refine ⟨s1, s2, s', hacc, hreq, hfin, hbody, ⟨hq1, ?_, ?_⟩, ⟨hq2, ?_, ?_⟩, ⟨hq', hcur', ?_⟩⟩
  · rw [hcur1, hq1.head_some.1]
  · intro x hx
    rw [List.tail_cons, hrec1] at hx
    exact honly x hx
  · rw [hcur2, hq2.head_some.1]
  · intro x hx
    rw [List.tail_cons, hrec2] at hx
    exact hnone x hx
  · intro x hx
    have hx' := mem_recordsAt_of_tail hx
    rw [hrec'] at hx'
    exact hnone x hx'

/-- A pass of the FCFS loop keeps the shape. -/
theorem fcfsBody_onlyFrontLaunched (t : FCFSTurn) (s : State) (a : Ptr) (rest : List Ptr)
    (hinv : OnlyFrontLaunched s (a :: rest)) (hpid : 0 < t.pid) :
    ∃ s', fcfsBody t s = .ok s' ∧ OnlyFrontLaunched s' rest := by
  obtain ⟨hq, hcur, honly⟩ := hinv
  obtain ⟨s', _, _, hbody, hq', hcur', _, _, _, hrec⟩ := fcfsBody_spec t s a rest hq hcur hpid
  refine ⟨s', hbody, hq', hcur', ?_⟩
  intro x hx
  have hx' := mem_recordsAt_of_tail hx
  rw [hrec] at hx'
  exact honly x hx'

/-! ## The claims -/

/-- C1: for a well-formed queue holding the records of `names` (in this order) with
`currentProcess` at the front, and an environment in which every `fork` succeeds,
`runFCFSScheduler` returns after printing exactly one completion line per name, in the order
of `names` (none when the list is empty), and leaves the queue empty. -/
theorem runFCFSScheduler_completes_in_input_order (s : State) (as : List Ptr)
    (names : List (List Char)) (startClock : Int) (turns : List FCFSTurn)
    (hq : IsQueue s as)
    (hnames : (recordsAt s.heap as).map Application.filename = names)
    (hcur : s.currentProcess = s.queue.front)
    (hturns : names.length ≤ turns.length) (hfork : ∀ t ∈ turns, 0 < t.pid) :
    ∃ s' out, runFCFSScheduler startClock turns s = some (.ok s') ∧
      s'.stdout = s.stdout ++ out ∧
      out.map Completion.name = names ∧ out.length = names.length ∧
      s'.queue.front = NULL ∧ s'.queue.rear = NULL ∧ IsQueue s' [] := by
  have hlenrec : (recordsAt s.heap as).length = as.length :=
    recordsAt_length_of_seg as _ hq.1
  have hnl : names.length = as.length := by rw [← hnames, List.length_map, hlenrec]
  have hq0 : IsQueue { s with start := startClock } as := hq.of_eq rfl rfl
  obtain ⟨s', hrun, hq', hout⟩ :=
    fcfsLoop_spec as turns { s with start := startClock } hq0 hcur (by omega) hfork
  have hmap := zipWith_names (recordsAt s.heap as) turns startClock (by omega)
  refine ⟨s', _, hrun, hout, ?_, ?_, hq'.front_eq_null_iff.2 rfl, ?_, hq'⟩
  · exact hmap.trans hnames
  · have := congrArg List.length (hmap.trans hnames)
    simpa using this
  · simpa using hq'.2.2.1

theorem runFCFSScheduler_completes_in_input_order_witness :
    ∃ s' out, runFCFSScheduler 0 [{ pid := 100, finish := 5 }, { pid := 101, finish := 9 }]
        twoApps = some (.ok s') ∧
      s'.stdout = twoApps.stdout ++ out ∧
      out.map Completion.name = ["a.out".toList, "b.out".toList] ∧
      out.length = ["a.out".toList, "b.out".toList].length ∧
      s'.queue.front = NULL ∧ s'.queue.rear = NULL ∧ IsQueue s' [] :=
  runFCFSScheduler_completes_in_input_order twoApps [1, 2] ["a.out".toList, "b.out".toList] 0
    [{ pid := 100, finish := 5 }, { pid := 101, finish := 9 }]
    (by decide) (by decide) (by decide) (by decide) (by decide)

/-- C2 (the code does not do this): on a well-formed non-empty queue with `currentProcess`
at the front, when every `fork` succeeds and every `malloc` returns a node that is not in use,
`runRoundRobinScheduler` does not return, whatever the quantum and however many passes it is
given: each pass links one new record and releases one, so the queue still holds as many
records as at the start and the loop asks for another pass. -/
theorem runRoundRobinScheduler_never_returns (startClock quantum : Int) (turns : List RRTurn)
    (s : State) (as : List Ptr) (hq : IsQueue s as) (hne : as ≠ [])
    (hcur : s.currentProcess = s.queue.front)
    (hnom : rrNominalB startClock quantum turns s = true) :
    runRoundRobinScheduler startClock quantum turns s = none ∧
      ∃ s' bs, rrAfter startClock quantum turns s = .ok s' ∧ IsQueue s' bs ∧
        bs.length = as.length := by
  obtain ⟨hloop, s', bs, hafter, hq', hlen, _⟩ :=
    rrLoop_spec startClock quantum turns s as hq hne hcur hnom
  exact ⟨hloop, s', bs, hafter, hq', hlen⟩

theorem runRoundRobinScheduler_never_returns_witness :
    runRoundRobinScheduler 0 1 [⟨100, 3, 2⟩, ⟨101, 7, 3⟩, ⟨102, 9, 1⟩] oneApp = none ∧
      ∃ s' bs, rrAfter 0 1 [⟨100, 3, 2⟩, ⟨101, 7, 3⟩, ⟨102, 9, 1⟩] oneApp = .ok s' ∧
        IsQueue s' bs ∧ bs.length = [1].length :=
  runRoundRobinScheduler_never_returns 0 1 [⟨100, 3, 2⟩, ⟨101, 7, 3⟩, ⟨102, 9, 1⟩] oneApp [1]
    (by decide) (by decide) (by decide) (by decide)

/-- C3: `dequeueApplication` ends the program with the "Queue is empty" failure exactly when
the queue has no records (its front pointer is null); in that case it does not return. -/
theorem dequeueApplication_empty_iff (s : State) :
    dequeueApplication s = .error (.exitFailure "Queue is empty\n") ↔ s.queue.front = NULL := by
  by_cases hf : s.queue.front = NULL
  · simp [dequeueApplication, hf]
  · cases hd : s.heap.deref s.queue.front with
    | none => simp [dequeueApplication, hf, hd]
    | some n => simp [dequeueApplication, hf, hd]

/-- C4: on a well-formed queue, when `malloc` returns a node that is not in use and the name
fits the name buffer, `enqueueApplication` returns, and the queue then holds the old records,
unchanged and in the same order, followed by one record with exactly the given name, status
and time; a null result of `malloc` is the fatal allocation failure.  Hence after the calls
`calls` on an empty queue the queue holds their records in call order, and `k` calls of
`dequeueApplication` remove the first `k` of them, leaving the others in order (FIFO). -/
theorem enqueueApplication_appends_fifo (s : State) (as : List Ptr) (newNode : Ptr)
    (filename : List Char) (status : ProcessStatus) (time : Int)
    (s0 : State) (calls : List EnqueueCall)
    (hq : IsQueue s as) (hnn : newNode ≠ NULL) (hfresh : s.heap newNode = none)
    (hlen : filename.length < MAX_FILENAME_LENGTH)
    (hq0 : IsQueue s0 []) (hnd : (calls.map EnqueueCall.newNode).Nodup)
    (hcalls : ∀ c ∈ calls, c.newNode ≠ NULL ∧ s0.heap c.newNode = none ∧
      c.filename.length < MAX_FILENAME_LENGTH) :
    (∃ s', enqueueApplication newNode s filename status time = .ok s' ∧
      IsQueue s' (as ++ [newNode]) ∧
      recordsAt s'.heap (as ++ [newNode]) =
        recordsAt s.heap as ++ [freshRecord filename status time]) ∧
    enqueueApplication NULL s filename status time =
      .error (.exitFailure "Error allocating memory") ∧
    (∃ sn, enqueueAll calls s0 = .ok sn ∧
      IsQueue sn (calls.map EnqueueCall.newNode) ∧
      recordsAt sn.heap (calls.map EnqueueCall.newNode) =
        calls.map (fun c => freshRecord c.filename c.status c.time) ∧
      ∀ k, k ≤ calls.length → ∃ sk, dequeueTimes k sn = .ok sk ∧
        IsQueue sk ((calls.map EnqueueCall.newNode).drop k) ∧
        recordsAt sk.heap ((calls.map EnqueueCall.newNode).drop k) =
          (calls.drop k).map (fun c => freshRecord c.filename c.status c.time)) := by
  refine ⟨?_, by simp [enqueueApplication], ?_⟩
  · obtain ⟨s', hrun, hq', hrec, _⟩ :=
      enqueueApplication_records s as newNode filename status time hq hnn hfresh hlen
    exact ⟨s', hrun, hq', hrec⟩
  · obtain ⟨sn, hrun, hqn, hrecn⟩ := enqueueAll_spec calls s0 [] hq0 hnd hcalls
    have hqn' : IsQueue sn (calls.map EnqueueCall.newNode) := by simpa using hqn
    have hrecn' : recordsAt sn.heap (calls.map EnqueueCall.newNode) =
        calls.map (fun c => freshRecord c.filename c.status c.time) := by
      simpa [recordsAt] using hrecn
    refine ⟨sn, hrun, hqn', hrecn', ?_⟩
    intro k hk
    obtain ⟨sk, hdeq, hqk, hreck⟩ :=
      dequeueTimes_spec k sn (calls.map EnqueueCall.newNode) hqn' (by simpa using hk)
    refine ⟨sk, hdeq, hqk, ?_⟩
    rw [hreck, hrecn', List.map_drop]

theorem enqueueApplication_appends_fifo_witness :
    (∃ s', enqueueApplication 3 twoApps "c.out".toList .NEW 0 = .ok s' ∧
      IsQueue s' ([1, 2] ++ [3]) ∧
      recordsAt s'.heap ([1, 2] ++ [3]) =
        recordsAt twoApps.heap [1, 2] ++ [freshRecord "c.out".toList .NEW 0]) ∧
    enqueueApplication NULL twoApps "c.out".toList .NEW 0 =
      .error (.exitFailure "Error allocating memory") ∧
    (∃ sn, enqueueAll twoCalls initialState = .ok sn ∧
      IsQueue sn (twoCalls.map EnqueueCall.newNode) ∧
      recordsAt sn.heap (twoCalls.map EnqueueCall.newNode) =
        twoCalls.map (fun c => freshRecord c.filename c.status c.time) ∧
      ∀ k, k ≤ twoCalls.length → ∃ sk, dequeueTimes k sn = .ok sk ∧
        IsQueue sk ((twoCalls.map EnqueueCall.newNode).drop k) ∧
        recordsAt sk.heap ((twoCalls.map EnqueueCall.newNode).drop k) =
          (twoCalls.drop k).map (fun c => freshRecord c.filename c.status c.time)) :=
  enqueueApplication_appends_fifo twoApps [1, 2] 3 "c.out".toList .NEW 0 initialState twoCalls
    (by decide) (by decide) (by decide) (by decide) (by decide) (by decide) (by decide)

/-- C5: on a well-formed non-empty queue `dequeueApplication` returns; the head node is
released, the other records stay in the queue unchanged and in the same order, and
`currentProcess` is set to the new front of the queue (null when the queue has become empty),
which is not the node that was removed. -/
theorem dequeueApplication_removes_head (s : State) (a : Ptr) (rest : List Ptr)
    (hq : IsQueue s (a :: rest)) :
    ∃ s', dequeueApplication s = .ok s' ∧ IsQueue s' rest ∧ s'.heap a = none ∧
      recordsAt s'.heap rest = recordsAt s.heap rest ∧
      s'.currentProcess = s'.queue.front ∧ s'.currentProcess = rest.headD NULL ∧
      s'.currentProcess ≠ a := by
  obtain ⟨_, ha0, hanot, _, _, _⟩ := hq.head_some
  obtain ⟨s', hrun, hq', hheap, hcur, hfront, _⟩ := dequeueApplication_spec s a rest hq
  refine ⟨s', hrun, hq', by rw [hheap, Heap.free_same], ?_, by rw [hcur, hfront], hcur, ?_⟩
  · apply recordsAt_congr
    intro b hb
    rw [hheap, Heap.free_other _ (fun e => hanot (by rw [← e]; exact hb))]
  · rw [hcur]
    cases rest with
    | nil => exact fun e => ha0 e.symm
    | cons b rest => exact fun e => hanot (by rw [← e]; exact List.mem_cons_self _ _)

theorem dequeueApplication_removes_head_witness :
    ∃ s', dequeueApplication twoApps = .ok s' ∧ IsQueue s' [2] ∧ s'.heap 1 = none ∧
      recordsAt s'.heap [2] = recordsAt twoApps.heap [2] ∧
      s'.currentProcess = s'.queue.front ∧ s'.currentProcess = [2].headD NULL ∧
      s'.currentProcess ≠ 1 :=
  dequeueApplication_removes_head twoApps 1 [2] (by decide)

set_option maxRecDepth 100000 in
/-- C6 fails as stated: a file of one line, made of 255 letters and a line feed, is read as
two records, the second with an empty name. -/
theorem mainParseLoop_long_line_two_records :
    ∃ s, mainParseLoop [1, 2] (fileOfLines [List.replicate 255 'a']) initialState
        = some (.ok s) ∧
      IsQueue s [1, 2] ∧
      recordsAt s.heap [1, 2] =
        [freshRecord (List.replicate 255 'a') .NEW 0, freshRecord [] .NEW 0] ∧
      (recordsAt s.heap [1, 2]).length ≠ [List.replicate 255 'a'].length :=
  ⟨_, rfl, by decide, by decide, by decide⟩

/-- C6 (amended): for a file of N lines, each of at most 254 characters (none of them the
terminator) followed by a line feed, when `malloc` returns a new non-null node for each line,
the parsing loop of `main` returns with a queue of exactly N records, in file order, each with
the line without its line feed as name, status NEW and time 0. -/
theorem mainParseLoop_one_record_per_line (lines : List (List Char)) (mallocs : List Ptr)
    (hlines : ∀ l ∈ lines, newline ∉ l ∧ NUL ∉ l ∧ l.length + 1 < MAX_FILENAME_LENGTH)
    (hlen : mallocs.length = lines.length) (hnd : mallocs.Nodup)
    (h0 : ∀ q ∈ mallocs, q ≠ NULL) :
    ∃ s, mainParseLoop mallocs (fileOfLines lines) initialState = some (.ok s) ∧
      IsQueue s mallocs ∧
      recordsAt s.heap mallocs = lines.map (fun l => freshRecord l .NEW 0) ∧
      (recordsAt s.heap mallocs).length = lines.length := by
  obtain ⟨s, hrun, hq, hrec, _⟩ := mainParseLoop_spec lines mallocs initialState []
    (by decide) hlines hlen hnd (fun q hq => ⟨h0 q hq, rfl⟩)
  have hrec' : recordsAt s.heap mallocs = lines.map (fun l => freshRecord l .NEW 0) := by
    simpa [recordsAt] using hrec
  exact ⟨s, hrun, by simpa using hq, hrec', by rw [hrec', List.length_map]⟩

theorem mainParseLoop_one_record_per_line_witness :
    ∃ s, mainParseLoop [1, 2] (fileOfLines ["a.out".toList, "b.out".toList]) initialState
        = some (.ok s) ∧
      IsQueue s [1, 2] ∧
      recordsAt s.heap [1, 2] =
        ["a.out".toList, "b.out".toList].map (fun l => freshRecord l .NEW 0) ∧
      (recordsAt s.heap [1, 2]).length = ["a.out".toList, "b.out".toList].length :=
  mainParseLoop_one_record_per_line ["a.out".toList, "b.out".toList] [1, 2]
    (by decide) (by decide) (by decide) (by decide)

/-- C7 (the code does not do this): with the arguments `RR apps.txt` (no quantum) the argument
check of `main` passes, `quantum` becomes 0 and control reaches `fopen` with a null file name
instead of a usage error; with `FCFS apps.txt extra` the extra argument is ignored and the
program runs the file and returns 0. -/
theorem main_accepts_malformed_arguments :
    mainArguments ["scheduler".toList, "RR".toList, "apps.txt".toList] =
      .ok { algorithm := "RR".toList, inputFilename := .null, quantum := some 0 } ∧
    main exampleEnv ["scheduler".toList, "RR".toList, "apps.txt".toList] =
      some (.error .undefinedBehaviour) ∧
    ∃ s, main exampleEnv ["scheduler".toList, "FCFS".toList, "apps.txt".toList,
        "extra".toList] = some (.ok s) ∧
      s.stdout.map Completion.name = ["a.out".toList, "b.out".toList] :=
  ⟨rfl, rfl, _, rfl, by decide⟩

/-- C8: in any run of `runRoundRobinScheduler` on a well-formed non-empty queue (every `fork`
succeeding, every `malloc` returning a node not in use), take any pass `t` after the passes
`pre`, with a clock reading not before the scheduler's start.  The pass sets the time of the
current record, the head `a` of the queue, to its previous value plus the time elapsed since
the start; the record linked at the rear has the same name and exactly this sum as time; the
other records are unchanged; and the sum is not less than the previous value. -/
theorem runRoundRobinScheduler_time_accumulates (startClock quantum : Int)
    (pre : List RRTurn) (t : RRTurn) (s : State) (as : List Ptr)
    (hq : IsQueue s as) (hne : as ≠ []) (hcur : s.currentProcess = s.queue.front)
    (hnom : rrNominalB startClock quantum (pre ++ [t]) s = true)
    (hclock : startClock ≤ t.finish) :
    ∃ sk a rest n s1 s', rrAfter startClock quantum pre s = .ok sk ∧
      IsQueue sk (a :: rest) ∧ sk.currentProcess = a ∧ sk.heap a = some n ∧
      rrAccount startClock t sk = .ok s1 ∧
      (s1.heap a).map (fun m => m.app.executionTime) =
        some (n.app.executionTime + (t.finish - startClock)) ∧
      rrBody startClock quantum t sk = .ok s' ∧ IsQueue s' (rest ++ [t.newNode]) ∧
      recordsAt s'.heap (rest ++ [t.newNode]) = recordsAt sk.heap rest ++
        [{ filename := n.app.filename, pid := none, status := .STOPPED,
           executionTime := n.app.executionTime + (t.finish - startClock) }] ∧
      n.app.executionTime ≤ n.app.executionTime + (t.finish - startClock) := by
  obtain ⟨sk, bs, hafter, hqk, hlen, hcurk, hnomk⟩ :=
    rrAfter_nominal startClock quantum pre [t] s as hq hne hcur hnom
  cases bs with
  | nil =>
    have : as.length = 0 := by simpa using hlen.symm
    exact absurd (List.length_eq_zero.1 this) hne
  | cons a rest =>
    obtain ⟨hpid, hnn, hfresh, _⟩ := (rrNominalB_cons startClock quantum t [] sk).1 hnomk
    obtain ⟨s1, s', n, hn, hacc, hn1, hbody, hq', _, hrec, _, _⟩ :=
      rrBody_spec startClock quantum t sk a rest hqk hcurk hpid hnn hfresh
    refine ⟨sk, a, rest, n, s1, s', hafter, hqk, ?_, hn, hacc, ?_, hbody, hq', hrec, by omega⟩
    · rw [hcurk]; exact hqk.head_some.1
    · rw [hn1]; rfl

theorem runRoundRobinScheduler_time_accumulates_witness :
    ∃ sk a rest n s1 s', rrAfter 0 1 [⟨100, 3, 2⟩] oneApp = .ok sk ∧
      IsQueue sk (a :: rest) ∧ sk.currentProcess = a ∧ sk.heap a = some n ∧
      rrAccount 0 ⟨101, 7, 3⟩ sk = .ok s1 ∧
      (s1.heap a).map (fun m => m.app.executionTime) =
        some (n.app.executionTime + ((⟨101, 7, 3⟩ : RRTurn).finish - 0)) ∧
      rrBody 0 1 ⟨101, 7, 3⟩ sk = .ok s' ∧
      IsQueue s' (rest ++ [(⟨101, 7, 3⟩ : RRTurn).newNode]) ∧
      recordsAt s'.heap (rest ++ [(⟨101, 7, 3⟩ : RRTurn).newNode]) = recordsAt sk.heap rest ++
        [{ filename := n.app.filename, pid := none, status := .STOPPED,
           executionTime := n.app.executionTime + ((⟨101, 7, 3⟩ : RRTurn).finish - 0) }] ∧
      n.app.executionTime ≤ n.app.executionTime + ((⟨101, 7, 3⟩ : RRTurn).finish - 0) :=
  runRoundRobinScheduler_time_accumulates 0 1 [⟨100, 3, 2⟩] ⟨101, 7, 3⟩ oneApp [1]
    (by decide) (by decide) (by decide) (by decide) (by decide)

/-- C10 (the code does not do this): after the input `a.out` is parsed and the round-robin
loop has made one pass, the only record of the queue has status STOPPED and a process handle
that was never set. -/
theorem requeued_record_has_no_process_handle :
    ∃ s0 s', mainParseLoop [1] (fileOfLines ["a.out".toList]) initialState = some (.ok s0) ∧
      rrAfter 0 1 [⟨100, 7, 2⟩] { s0 with currentProcess := s0.queue.front } = .ok s' ∧
      IsQueue s' [2] ∧
      recordsAt s'.heap [2] =
        [{ filename := "a.out".toList, pid := none, status := .STOPPED,
           executionTime := 7 }] :=
  ⟨_, _, rfl, rfl, by decide, by decide⟩

end Scheduler
